import Mathlib

/-!
Shallow embedding of `epg.py` (XMLTV EPG generator): the programme model,
the overlap-cleaning algorithm `clean_overlaps`, the guide builder
`build_programs`, and the serialization fragments (`xmltv_time`, the
`length` and `desc` children of a programme element), together with
theorems about the specified properties.

Python dicts holding programme data are modelled as a structure; Python
ints are `Int`; optional fields are `Option`.  Python's stable `list.sort`
is modelled by `List.insertionSort` (any stable sort computes the same
function for a total preorder).
-/

/-- One programme dict, as built by `build_programs`
(keys: channel, start, stop, title, tag, category, poster, iframe,
viewers, id, m3u8). -/
structure Programme where
  channel : String
  start : Int
  stop : Int
  title : String
  tag : Option String
  category : Option String
  poster : Option String
  iframe : Option String
  viewers : Option Int
  id : Option Int
  m3u8 : Option String
deriving Repr, DecidableEq

/-- A programme with only the timeline-relevant fields set (the optional
fields a record without tag, category, poster, iframe, viewers, id or
resolved URL would produce). -/
def mkProg (c : String) (s e : Int) (t : String) : Programme :=
  { channel := c, start := s, stop := e, title := t, tag := none, category := none,
    poster := none, iframe := none, viewers := none, id := none, m3u8 := none }

/-- Python sort key `x["start"]` as a (total, transitive) relation. -/
def startLe (a b : Programme) : Prop := a.start ≤ b.start

instance : DecidableRel startLe := fun a b => inferInstanceAs (Decidable (a.start ≤ b.start))

instance : IsTotal Programme startLe := ⟨fun a b => Int.le_total a.start b.start⟩

instance : IsTrans Programme startLe := ⟨fun _ _ _ h h' => le_trans h h'⟩

/-- Strict lexicographic order on code-point sequences, as Python compares
strings (a proper initial segment sorts first; otherwise the first
differing code point decides). -/
def charListLt : List Char → List Char → Bool
  | [], [] => false
  | [], _ :: _ => true
  | _ :: _, [] => false
  | a :: as, b :: bs => a < b || (a = b && charListLt as bs)

theorem charListLt_trans : ∀ {as bs cs : List Char},
    charListLt as bs = true → charListLt bs cs = true → charListLt as cs = true := by
  intro as
  induction as with
  | nil =>
    intro bs cs h h'
    cases bs with
    | nil => simpa [charListLt] using h
    | cons b bs =>
      cases cs with
      | nil => simpa [charListLt] using h'
      | cons c cs => simp [charListLt]
  | cons a as ih =>
    intro bs cs h h'
    cases bs with
    | nil => simp [charListLt] at h
    | cons b bs =>
      cases cs with
      | nil => simp [charListLt] at h'
      | cons c cs =>
        simp only [charListLt, Bool.or_eq_true, Bool.and_eq_true, decide_eq_true_eq] at h h' ⊢
        rcases h with h | ⟨rfl, h⟩
        · rcases h' with h' | ⟨rfl, h'⟩
          · exact Or.inl (lt_trans h h')
          · exact Or.inl h
        · rcases h' with h' | ⟨rfl, h'⟩
          · exact Or.inl h'
          · exact Or.inr ⟨rfl, ih h h'⟩

theorem charListLt_total : ∀ as bs : List Char,
    charListLt as bs = true ∨ charListLt bs as = true ∨ as = bs := by
  intro as
  induction as with
  | nil =>
    intro bs
    cases bs with
    | nil => simp [charListLt]
    | cons b bs => simp [charListLt]
  | cons a as ih =>
    intro bs
    cases bs with
    | nil => simp [charListLt]
    | cons b bs =>
      rcases lt_trichotomy a b with hab | rfl | hab
      · exact Or.inl (by simp [charListLt, hab])
      · rcases ih bs with h | h | rfl
        · exact Or.inl (by simp [charListLt, h])
        · exact Or.inr (Or.inl (by simp [charListLt, h]))
        · exact Or.inr (Or.inr rfl)
      · exact Or.inr (Or.inl (by simp [charListLt, hab]))

/-- Python string `<` (by code points). -/
def strLt (s t : String) : Bool := charListLt s.data t.data

/-- Python sort key `(x["channel"], x["start"])` (lexicographic tuple order). -/
def chanStartLe (a b : Programme) : Prop :=
  strLt a.channel b.channel = true ∨ (a.channel = b.channel ∧ a.start ≤ b.start)

instance : DecidableRel chanStartLe := fun a b =>
  inferInstanceAs (Decidable (_ ∨ _))

instance : IsTotal Programme chanStartLe := by
  constructor
  intro a b
  rcases charListLt_total a.channel.data b.channel.data with h | h | h
  · exact Or.inl (Or.inl h)
  · exact Or.inr (Or.inl h)
  · have hc : a.channel = b.channel := String.ext h
    rcases Int.le_total a.start b.start with h' | h'
    · exact Or.inl (Or.inr ⟨hc, h'⟩)
    · exact Or.inr (Or.inr ⟨hc.symm, h'⟩)

instance : IsTrans Programme chanStartLe := by
  constructor
  intro a b c hab hbc
  rcases hab with hab | ⟨hab, hab'⟩
  · rcases hbc with hbc | ⟨hbc, _⟩
    · exact Or.inl (charListLt_trans hab hbc)
    · exact Or.inl (by rw [strLt] at hab ⊢; rw [← hbc]; exact hab)
  · rcases hbc with hbc | ⟨hbc, hbc'⟩
    · exact Or.inl (by rw [strLt] at hbc ⊢; rw [hab]; exact hbc)
    · exact Or.inr ⟨hab.trans hbc, le_trans hab' hbc'⟩

/-- Grouping `by_chan.setdefault(p["channel"], []).append(p)`: an
insertion-ordered association list from keys to lists; an existing key has
the new element appended to its list, a new key is appended at the end. -/
def addToGroup (key : α → String) : List (String × List α) → α → List (String × List α)
  | [], x => [(key x, [x])]
  | (c, l) :: rest, x =>
    if c = key x then (c, l ++ [x]) :: rest else (c, l) :: addToGroup key rest x

/-- The whole grouping loop (`for p in programmes: by_chan.setdefault(...)`),
preserving Python dict insertion order. -/
def groupBy (key : α → String) (xs : List α) : List (String × List α) :=
  xs.foldl (addToGroup key) []

/-- The per-channel cleaning loop body of `clean_overlaps`, with `cur` the
programme under construction and the remaining sorted items as the list
argument; returns the `merged` list for the channel.  `p.copy()` is the
identity in this pure model (the heap model below tracks copying). -/
def sweep (strategy : String) (cur : Programme) : List Programme → List Programme
  | [] => [cur]
  | p :: rest =>
    if p.start < cur.stop then
      if strategy = "trim" then
        if p.start ≤ cur.start then
          sweep strategy p rest
        else
          { cur with stop := p.start } :: sweep strategy p rest
      else
        sweep strategy { cur with stop := max cur.stop p.stop,
                                  title := cur.title ++ " / " ++ p.title } rest
    else
      cur :: sweep strategy p rest

/-- One channel of `clean_overlaps`: sort by start (stably), then run the
cur/merged loop. -/
def cleanChannel (strategy : String) (plist : List Programme) : List Programme :=
  match plist.insertionSort startLe with
  | [] => []
  | p :: rest => sweep strategy p rest

/-- `clean_overlaps(programmes, strategy)` from `epg.py`: group by channel,
per channel sort by start and resolve overlaps (`trim` or `merge`), then
return the concatenation sorted by `(channel, start)`. -/
def clean_overlaps (programmes : List Programme) (strategy : String := "trim") :
    List Programme :=
  ((groupBy Programme.channel programmes).flatMap
    (fun g => cleanChannel strategy g.2)).insertionSort chanStartLe

/-- Adjacent non-overlap: the earlier programme ends no later than the next
begins. -/
def nonOv (a b : Programme) : Prop := a.stop ≤ b.start

instance : DecidableRel nonOv := fun a b => inferInstanceAs (Decidable (a.stop ≤ b.start))

/-- Executable check of `List.Chain' nonOv`. -/
def chainNonOvB : List Programme → Bool
  | [] => true
  | [_] => true
  | a :: b :: l => decide (a.stop ≤ b.start) && chainNonOvB (b :: l)

theorem chainNonOvB_iff : ∀ l : List Programme, chainNonOvB l = true ↔ l.Chain' nonOv := by
  intro l
  induction l with
  | nil => simp [chainNonOvB]
  | cons a l ih =>
    cases l with
    | nil => simp [chainNonOvB]
    | cons b l =>
      rw [chainNonOvB, List.chain'_cons]
      simp only [Bool.and_eq_true, decide_eq_true_eq, ih]
      exact Iff.rfl

instance (priority := 2000) instDecChainNonOv (l : List Programme) :
    Decidable (l.Chain' nonOv) :=
  decidable_of_iff (chainNonOvB l = true) (chainNonOvB_iff l)

/-- What `by_chan[c]` holds after grouping: the body of the first entry
with key `c`, or `[]` when `c` is absent. -/
def groupOf (acc : List (String × List α)) (c : String) : List α :=
  match acc.find? (fun g => g.1 == c) with
  | some g => g.2
  | none => []

theorem groupOf_nil (c : String) : groupOf ([] : List (String × List α)) c = [] := rfl

theorem groupOf_cons (c' : String) (l : List α) (rest : List (String × List α))
    (c : String) :
    groupOf ((c', l) :: rest) c = if c' = c then l else groupOf rest c := by
  by_cases h : c' = c
  · simp [groupOf, List.find?_cons, h]
  · have hbeq : (c' == c) = false := beq_eq_false_iff_ne.mpr h
    simp [groupOf, List.find?_cons, hbeq, h]

theorem groupOf_addToGroup (key : α → String) (acc : List (String × List α)) (x : α)
    (c : String) :
    groupOf (addToGroup key acc x) c
      = groupOf acc c ++ (if key x = c then [x] else []) := by
  induction acc with
  | nil =>
    by_cases h : key x = c
    · simp [addToGroup, groupOf_cons, groupOf_nil, h]
    · simp [addToGroup, groupOf_cons, groupOf_nil, h]
  | cons g rest ih =>
    obtain ⟨c', l⟩ := g
    simp only [addToGroup]
    by_cases hg : c' = key x
    · rw [if_pos hg, groupOf_cons, groupOf_cons]
      by_cases hc : c' = c
      · rw [if_pos hc, if_pos hc, if_pos (hg.symm.trans hc)]
      · rw [if_neg hc, if_neg hc, if_neg (fun h => hc (hg.trans h))]
        simp
    · rw [if_neg hg, groupOf_cons, groupOf_cons]
      by_cases hc : c' = c
      · rw [if_pos hc, if_pos hc, if_neg (fun h => hg (hc.trans h.symm))]
        simp
      · rw [if_neg hc, if_neg hc, ih]

theorem groupOf_foldl (key : α → String) (c : String) :
    ∀ (xs : List α) (acc : List (String × List α)),
      groupOf (xs.foldl (addToGroup key) acc) c
        = groupOf acc c ++ xs.filter (fun x => key x = c) := by
  intro xs
  induction xs with
  | nil =>
    intro acc
    simp only [List.foldl_nil, List.filter_nil, List.append_nil]
  | cons x xs ih =>
    intro acc
    rw [List.foldl_cons, ih, groupOf_addToGroup]
    by_cases h : key x = c
    · simp [List.filter_cons, h]
    · simp [List.filter_cons, h]

/-- The grouping loop partitions the list: the group of `c` is exactly the
elements with key `c`, in order. -/
theorem groupOf_groupBy (key : α → String) (xs : List α) (c : String) :
    groupOf (groupBy key xs) c = xs.filter (fun x => key x = c) := by
  have h := groupOf_foldl key c xs []
  simpa [groupBy, groupOf] using h

theorem addToGroup_keyed (key : α → String) (acc : List (String × List α)) (x : α)
    (h : ∀ g ∈ acc, ∀ y ∈ g.2, key y = g.1) :
    ∀ g ∈ addToGroup key acc x, ∀ y ∈ g.2, key y = g.1 := by
  induction acc with
  | nil =>
    intro g hg y hy
    simp only [addToGroup, List.mem_singleton] at hg
    subst hg
    simp only [List.mem_singleton] at hy
    subst hy
    rfl
  | cons g₀ rest ih =>
    obtain ⟨c', l⟩ := g₀
    have hhead : ∀ y ∈ l, key y = c' := fun y hy => h (c', l) (by simp) y hy
    have htail : ∀ g ∈ rest, ∀ y ∈ g.2, key y = g.1 := fun g hg y hy =>
      h g (by simp [hg]) y hy
    intro g hg y hy
    by_cases hcase : c' = key x
    · rw [show addToGroup key ((c', l) :: rest) x = (c', l ++ [x]) :: rest by
        simp [addToGroup, hcase]] at hg
      rcases List.mem_cons.mp hg with rfl | hg
      · rcases List.mem_append.mp hy with hy | hy
        · exact hhead y hy
        · simp only [List.mem_singleton] at hy
          subst hy
          exact hcase.symm
      · exact htail g hg y hy
    · rw [show addToGroup key ((c', l) :: rest) x = (c', l) :: addToGroup key rest x by
        simp [addToGroup, hcase]] at hg
      rcases List.mem_cons.mp hg with rfl | hg
      · exact hhead y hy
      · exact ih htail g hg y hy

/-- Every group body records elements whose key is the group's key. -/
theorem groupBy_keyed (key : α → String) (xs : List α) :
    ∀ g ∈ groupBy key xs, ∀ y ∈ g.2, key y = g.1 := by
  have main : ∀ (xs : List α) (acc : List (String × List α)),
      (∀ g ∈ acc, ∀ y ∈ g.2, key y = g.1) →
      ∀ g ∈ xs.foldl (addToGroup key) acc, ∀ y ∈ g.2, key y = g.1 := by
    intro xs
    induction xs with
    | nil => intro acc h; simpa using h
    | cons x xs ih =>
      intro acc h
      rw [List.foldl_cons]
      exact ih _ (addToGroup_keyed key acc x h)
  exact main xs [] (by simp)

theorem addToGroup_keys (key : α → String) (acc : List (String × List α)) (x : α) :
    (addToGroup key acc x).map Prod.fst
      = if key x ∈ acc.map Prod.fst then acc.map Prod.fst
        else acc.map Prod.fst ++ [key x] := by
  induction acc with
  | nil => simp [addToGroup]
  | cons g rest ih =>
    obtain ⟨c', l⟩ := g
    by_cases hg : c' = key x
    · subst hg
      simp [addToGroup]
    · have hne : key x = c' ↔ False := ⟨fun h => hg h.symm, False.elim⟩
      simp only [addToGroup, if_neg hg, List.map_cons, ih]
      by_cases hmem : key x ∈ rest.map Prod.fst
      · simp [hmem, hne]
      · simp [hmem, hne]

/-- The grouping loop produces pairwise-distinct keys. -/
theorem groupBy_keys_nodup (key : α → String) (xs : List α) :
    ((groupBy key xs).map Prod.fst).Nodup := by
  have main : ∀ (xs : List α) (acc : List (String × List α)),
      (acc.map Prod.fst).Nodup → ((xs.foldl (addToGroup key) acc).map Prod.fst).Nodup := by
    intro xs
    induction xs with
    | nil => intro acc h; simpa using h
    | cons x xs ih =>
      intro acc h
      rw [List.foldl_cons]
      refine ih _ ?_
      rw [addToGroup_keys]
      by_cases hmem : key x ∈ acc.map Prod.fst
      · simpa [hmem] using h
      · rw [if_neg hmem, ← List.concat_eq_append]
        exact List.Nodup.concat hmem h
  exact main xs [] (by simp)

theorem addToGroup_flat (key : α → String) (acc : List (String × List α)) (x : α) :
    ((addToGroup key acc x).flatMap Prod.snd).Perm (acc.flatMap Prod.snd ++ [x]) := by
  induction acc with
  | nil => simp [addToGroup]
  | cons g rest ih =>
    obtain ⟨c', l⟩ := g
    by_cases hg : c' = key x
    · rw [show addToGroup key ((c', l) :: rest) x = (c', l ++ [x]) :: rest by
        simp [addToGroup, hg]]
      simp only [List.flatMap_cons]
      rw [List.append_assoc, List.append_assoc]
      exact List.Perm.append_left l (List.perm_append_comm)
    · rw [show addToGroup key ((c', l) :: rest) x = (c', l) :: addToGroup key rest x by
        simp [addToGroup, hg]]
      simp only [List.flatMap_cons]
      rw [List.append_assoc]
      exact List.Perm.append_left l ih

/-- All grouped elements together are a permutation of the input. -/
theorem groupBy_flat_perm (key : α → String) (xs : List α) :
    ((groupBy key xs).flatMap Prod.snd).Perm xs := by
  have main : ∀ (xs : List α) (acc : List (String × List α)),
      ((xs.foldl (addToGroup key) acc).flatMap Prod.snd).Perm
        (acc.flatMap Prod.snd ++ xs) := by
    intro xs
    induction xs with
    | nil => intro acc; simp
    | cons x xs ih =>
      intro acc
      rw [List.foldl_cons]
      refine (ih _).trans ?_
      have h := List.Perm.append_right xs (addToGroup_flat key acc x)
      rw [List.append_assoc] at h
      simpa using h
  simpa using main xs []

theorem groupBy_ne_nil (key : α → String) (xs : List α) :
    ∀ g ∈ groupBy key xs, g.2 ≠ [] := by
  have step : ∀ (acc : List (String × List α)) (x : α),
      (∀ g ∈ acc, g.2 ≠ []) → ∀ g ∈ addToGroup key acc x, g.2 ≠ [] := by
    intro acc x h
    induction acc with
    | nil =>
      intro g hg
      simp only [addToGroup, List.mem_singleton] at hg
      subst hg
      simp
    | cons g₀ rest ih =>
      obtain ⟨c', l⟩ := g₀
      intro g hg
      simp only [addToGroup] at hg
      split at hg
      · rcases List.mem_cons.mp hg with rfl | hg
        · simp
        · exact h g (by simp [hg])
      · rcases List.mem_cons.mp hg with rfl | hg
        · exact h (c', l) (by simp)
        · exact ih (fun g hg => h g (by simp [hg])) g hg
  have main : ∀ (xs : List α) (acc : List (String × List α)),
      (∀ g ∈ acc, g.2 ≠ []) → ∀ g ∈ xs.foldl (addToGroup key) acc, g.2 ≠ [] := by
    intro xs
    induction xs with
    | nil => intro acc h; simpa using h
    | cons x xs ih =>
      intro acc h
      rw [List.foldl_cons]
      exact ih _ (step acc x h)
  exact main xs [] (by simp)

/-- With pairwise-distinct keys, the first entry found for a member key is
that member. -/
theorem find?_of_mem_nodup (acc : List (String × List α)) (c : String)
    (l : List α) (hmem : (c, l) ∈ acc) (hnd : (acc.map Prod.fst).Nodup) :
    acc.find? (fun g => g.1 == c) = some (c, l) := by
  induction acc with
  | nil => cases hmem
  | cons g rest ih =>
    obtain ⟨c', l'⟩ := g
    rcases List.mem_cons.mp hmem with heq | hmem'
    · obtain ⟨h1, h2⟩ := Prod.ext_iff.mp heq
      simp only at h1 h2
      subst h1
      subst h2
      simp [List.find?_cons]
    · have hne : c' ≠ c := by
        intro h
        subst h
        have : c' ∈ rest.map Prod.fst := List.mem_map_of_mem Prod.fst hmem'
        exact (List.nodup_cons.mp (by simpa using hnd)).1 this
      have hbeq : (c' == c) = false := beq_eq_false_iff_ne.mpr hne
      rw [List.find?_cons]
      simp only [hbeq]
      exact ih hmem' (List.nodup_cons.mp (by simpa using hnd)).2

theorem sweep_channel (s : String) (c : String) :
    ∀ (rest : List Programme) (cur : Programme), cur.channel = c →
      (∀ q ∈ rest, q.channel = c) → ∀ q ∈ sweep s cur rest, q.channel = c := by
  intro rest
  induction rest with
  | nil =>
    intro cur hcur _ q hq
    simp only [sweep, List.mem_singleton] at hq
    subst hq
    exact hcur
  | cons p rest ih =>
    intro cur hcur hall q hq
    have hp : p.channel = c := hall p (by simp)
    have hrest : ∀ q ∈ rest, q.channel = c := fun q hq => hall q (by simp [hq])
    rw [sweep] at hq
    split at hq
    · split at hq
      · split at hq
        · exact ih p hp hrest q hq
        · rcases List.mem_cons.mp hq with rfl | hq
          · simpa using hcur
          · exact ih p hp hrest q hq
      · exact ih _ (by simpa using hcur) hrest q hq
    · rcases List.mem_cons.mp hq with rfl | hq
      · exact hcur
      · exact ih p hp hrest q hq

theorem sweep_ne_nil (s : String) : ∀ (rest : List Programme) (cur : Programme),
    sweep s cur rest ≠ [] := by
  intro rest
  induction rest with
  | nil =>
    intro cur
    simp [sweep]
  | cons p rest ih =>
    intro cur
    rw [sweep]
    split
    · split
      · split
        · exact ih p
        · simp
      · exact ih _
    · simp

theorem sweep_invariants (s : String) :
    ∀ (rest : List Programme) (cur : Programme),
      (cur :: rest).Pairwise startLe →
      (sweep s cur rest).Chain' nonOv ∧
      (∀ q ∈ sweep s cur rest, cur.start ≤ q.start) ∧
      (sweep s cur rest).Pairwise startLe := by
  intro rest
  induction rest with
  | nil =>
    intro cur _
    refine ⟨by simp [sweep], ?_, by simp [sweep]⟩
    intro q hq
    simp only [sweep, List.mem_singleton] at hq
    subst hq
    exact le_refl _
  | cons p rest ih =>
    intro cur hpw
    have hcp : cur.start ≤ p.start := (List.pairwise_cons.mp hpw).1 p (by simp)
    have hpr : (p :: rest).Pairwise startLe := (List.pairwise_cons.mp hpw).2
    have hcr : ∀ q ∈ rest, cur.start ≤ q.start := fun q hq =>
      (List.pairwise_cons.mp hpw).1 q (by simp [hq])
    simp only [sweep]
    split_ifs with h1 h2 h3
    · -- overlap, trim, complete containment: cur is dropped
      obtain ⟨c1, c2, c3⟩ := ih p hpr
      exact ⟨c1, fun q hq => le_trans hcp (c2 q hq), c3⟩
    · -- overlap, trim, partial: cur is trimmed to p.start and emitted
      obtain ⟨c1, c2, c3⟩ := ih p hpr
      refine ⟨?_, ?_, ?_⟩
      · refine List.chain'_cons'.mpr ⟨?_, c1⟩
        intro b hb
        exact c2 b (List.mem_of_mem_head? hb)
      · intro q hq
        rcases List.mem_cons.mp hq with rfl | hq
        · exact le_refl _
        · exact le_trans hcp (c2 q hq)
      · exact List.pairwise_cons.mpr ⟨fun q hq => le_trans hcp (c2 q hq), c3⟩
    · -- overlap, merge: cur absorbs p
      have hpw' : List.Pairwise startLe ({ cur with stop := max cur.stop p.stop, title := cur.title ++ " / " ++ p.title } :: rest) := by
        refine List.pairwise_cons.mpr ⟨?_, (List.pairwise_cons.mp hpr).2⟩
        intro q hq
        simpa [startLe] using hcr q hq
      obtain ⟨c1, c2, c3⟩ := ih _ hpw'
      refine ⟨c1, fun q hq => ?_, c3⟩
      simpa [startLe] using c2 q hq
    · -- no overlap: cur is emitted as is
      have hstop : cur.stop ≤ p.start := not_lt.mp h1
      obtain ⟨c1, c2, c3⟩ := ih p hpr
      refine ⟨?_, ?_, ?_⟩
      · refine List.chain'_cons'.mpr ⟨?_, c1⟩
        intro b hb
        exact le_trans hstop (c2 b (List.mem_of_mem_head? hb))
      · intro q hq
        rcases List.mem_cons.mp hq with rfl | hq
        · exact le_refl _
        · exact le_trans hcp (c2 q hq)
      · exact List.pairwise_cons.mpr ⟨fun q hq => le_trans hcp (c2 q hq), c3⟩

theorem sweep_of_chain (s : String) :
    ∀ (rest : List Programme) (cur : Programme),
      (cur :: rest).Chain' nonOv → sweep s cur rest = cur :: rest := by
  intro rest
  induction rest with
  | nil =>
    intro cur _
    rfl
  | cons p rest ih =>
    intro cur hch
    have h1 : cur.stop ≤ p.start := (List.chain'_cons.mp hch).1
    rw [sweep, if_neg (not_lt.mpr h1), ih p (List.chain'_cons.mp hch).2]

theorem cleanChannel_chain (s : String) (l : List Programme) :
    (cleanChannel s l).Chain' nonOv := by
  rcases h : l.insertionSort startLe with _ | ⟨p, rest⟩
  · simp [cleanChannel, h]
  · have hpw : (p :: rest).Pairwise startLe := by
      have hs := List.sorted_insertionSort startLe l
      rw [h] at hs
      exact hs
    have : cleanChannel s l = sweep s p rest := by simp [cleanChannel, h]
    rw [this]
    exact (sweep_invariants s rest p hpw).1

theorem cleanChannel_pairwise (s : String) (l : List Programme) :
    (cleanChannel s l).Pairwise startLe := by
  rcases h : l.insertionSort startLe with _ | ⟨p, rest⟩
  · simp [cleanChannel, h]
  · have hpw : (p :: rest).Pairwise startLe := by
      have hs := List.sorted_insertionSort startLe l
      rw [h] at hs
      exact hs
    have : cleanChannel s l = sweep s p rest := by simp [cleanChannel, h]
    rw [this]
    exact (sweep_invariants s rest p hpw).2.2

theorem cleanChannel_channel (s c : String) (l : List Programme)
    (h : ∀ x ∈ l, x.channel = c) : ∀ q ∈ cleanChannel s l, q.channel = c := by
  have h' : ∀ x ∈ l.insertionSort startLe, x.channel = c := fun x hx =>
    h x ((List.mem_insertionSort startLe).mp hx)
  rcases hs : l.insertionSort startLe with _ | ⟨p, rest⟩
  · simp [cleanChannel, hs]
  · have heq : cleanChannel s l = sweep s p rest := by simp [cleanChannel, hs]
    rw [heq]
    refine sweep_channel s c rest p ?_ ?_
    · exact h' p (by rw [hs]; simp)
    · intro q hq
      exact h' q (by rw [hs]; simp [hq])

theorem cleanChannel_ne_nil (s : String) (l : List Programme) (h : l ≠ []) :
    cleanChannel s l ≠ [] := by
  rcases hs : l.insertionSort startLe with _ | ⟨p, rest⟩
  · exfalso
    have := List.length_insertionSort startLe l
    rw [hs] at this
    exact h (List.length_eq_zero.mp this.symm)
  · have heq : cleanChannel s l = sweep s p rest := by simp [cleanChannel, hs]
    rw [heq]
    exact sweep_ne_nil s rest p

theorem cleanChannel_of_sorted_chain (s : String) (l : List Programme)
    (h : (l.insertionSort startLe).Chain' nonOv) :
    cleanChannel s l = l.insertionSort startLe := by
  rcases hs : l.insertionSort startLe with _ | ⟨p, rest⟩
  · simp [cleanChannel, hs]
  · have heq : cleanChannel s l = sweep s p rest := by simp [cleanChannel, hs]
    rw [heq, sweep_of_chain s rest p (hs ▸ h)]

theorem cleanChannel_nil (s : String) : cleanChannel s [] = [] := rfl

/-- Filtering the concatenated per-channel results for channel `c` leaves
exactly channel `c`'s own cleaned list. -/
theorem flat_filter (s c : String) :
    ∀ (G : List (String × List Programme)),
      (∀ g ∈ G, ∀ y ∈ g.2, y.channel = g.1) →
      (G.map Prod.fst).Nodup →
      (G.flatMap (fun g => cleanChannel s g.2)).filter (fun p => p.channel == c)
        = cleanChannel s (groupOf G c) := by
  intro G
  induction G with
  | nil =>
    intro _ _
    simp [groupOf_nil, cleanChannel_nil]
  | cons g G ih =>
    obtain ⟨c', l⟩ := g
    intro hkeyed hnd
    have hnd' : ((G.map Prod.fst).Nodup) := (List.nodup_cons.mp (by simpa using hnd)).2
    have hcnotin : c' ∉ G.map Prod.fst := (List.nodup_cons.mp (by simpa using hnd)).1
    rw [List.flatMap_cons, List.filter_append, groupOf_cons]
    have hchan : ∀ q ∈ cleanChannel s l, q.channel = c' :=
      cleanChannel_channel s c' l (fun y hy => hkeyed (c', l) (by simp) y hy)
    by_cases hc : c' = c
    · rw [if_pos hc]
      have h1 : (cleanChannel s l).filter (fun p => p.channel == c) = cleanChannel s l :=
        List.filter_eq_self.mpr (fun q hq => beq_iff_eq.mpr ((hchan q hq).trans hc))
      have h2 : (G.flatMap (fun g => cleanChannel s g.2)).filter
          (fun p => p.channel == c) = [] := by
        refine List.filter_eq_nil.mpr ?_
        intro q hq
        obtain ⟨g, hgG, hqg⟩ := List.mem_flatMap.mp hq
        have hqc : q.channel = g.1 :=
          cleanChannel_channel s g.1 g.2 (fun y hy => hkeyed g (by simp [hgG]) y hy) q hqg
        have hg1 : g.1 ≠ c := by
          intro h
          refine hcnotin ?_
          rw [hc, ← h]
          exact List.mem_map_of_mem Prod.fst hgG
        simp [hqc, hg1]
      rw [h1, h2, List.append_nil]
    · rw [if_neg hc]
      have h1 : (cleanChannel s l).filter (fun p => p.channel == c) = [] := by
        refine List.filter_eq_nil.mpr ?_
        intro q hq
        simp [hchan q hq, hc]
      rw [h1, List.nil_append]
      exact ih (fun g hg => hkeyed g (by simp [hg])) hnd'

theorem cleanChannel_groupOf_sublist (s c : String) (G : List (String × List Programme)) :
    List.Sublist (cleanChannel s (groupOf G c)) (G.flatMap (fun g => cleanChannel s g.2)) := by
  rcases hfind : G.find? (fun g => g.1 == c) with _ | g
  · have h0 : groupOf G c = [] := by simp [groupOf, hfind]
    rw [h0, cleanChannel_nil]
    exact List.nil_sublist _
  · have hmem : g ∈ G := List.mem_of_find?_eq_some hfind
    have h0 : groupOf G c = g.2 := by simp [groupOf, hfind]
    rw [h0]
    have hinf : List.IsInfix (cleanChannel s g.2)
        ((G.map (fun g => cleanChannel s g.2)).flatten) :=
      List.infix_of_mem_flatten (List.mem_map_of_mem _ hmem)
    exact hinf.sublist

/-- C1: for every input programme list and every strategy (so in particular
both `trim` and `merge`), the output of `clean_overlaps` restricted to any
one channel is non-overlapping: listing that channel's output in order (it
is sorted by start), each programme ends no later than the next one
starts. -/
theorem clean_overlaps_nonoverlapping (ps : List Programme) (strategy c : String) :
    ((clean_overlaps ps strategy).filter (fun p => p.channel == c)).Chain' nonOv ∧
    ((clean_overlaps ps strategy).filter (fun p => p.channel == c)).Pairwise startLe := by
  have hkeyed := groupBy_keyed Programme.channel ps
  have hnd := groupBy_keys_nodup Programme.channel ps
  have hfil := flat_filter strategy c (groupBy Programme.channel ps) hkeyed hnd
  have hchanm : ∀ q ∈ cleanChannel strategy (groupOf (groupBy Programme.channel ps) c),
      q.channel = c := by
    refine cleanChannel_channel strategy c _ ?_
    intro y hy
    rw [groupOf_groupBy] at hy
    exact of_decide_eq_true (List.mem_filter.mp hy).2
  have hpw : (cleanChannel strategy
      (groupOf (groupBy Programme.channel ps) c)).Pairwise chanStartLe :=
    List.Pairwise.imp_of_mem
      (fun ha hb hr => Or.inr ⟨(hchanm _ ha).trans (hchanm _ hb).symm, hr⟩)
      (cleanChannel_pairwise strategy _)
  have hsub : List.Sublist (cleanChannel strategy (groupOf (groupBy Programme.channel ps) c))
      (clean_overlaps ps strategy) :=
    List.sublist_insertionSort hpw (cleanChannel_groupOf_sublist strategy c _)
  have hperm : ((clean_overlaps ps strategy).filter (fun p => p.channel == c)).Perm
      (cleanChannel strategy (groupOf (groupBy Programme.channel ps) c)) := by
    rw [← hfil]
    exact (List.perm_insertionSort chanStartLe _).filter _
  have hms : List.Sublist (cleanChannel strategy (groupOf (groupBy Programme.channel ps) c))
      ((clean_overlaps ps strategy).filter (fun p => p.channel == c)) := by
    have hself : (cleanChannel strategy
          (groupOf (groupBy Programme.channel ps) c)).filter (fun p => p.channel == c)
        = cleanChannel strategy (groupOf (groupBy Programme.channel ps) c) :=
      List.filter_eq_self.mpr (fun q hq => beq_iff_eq.mpr (hchanm q hq))
    rw [← hself]
    exact hsub.filter _
  have heq := hms.eq_of_length hperm.length_eq.symm
  rw [← heq]
  exact ⟨cleanChannel_chain strategy _, cleanChannel_pairwise strategy _⟩

theorem flatMap_perm_of_mem {f g : α → List β} (l : List α)
    (h : ∀ a ∈ l, (f a).Perm (g a)) : (l.flatMap f).Perm (l.flatMap g) := by
  induction l with
  | nil => simp
  | cons x xs ih =>
    rw [List.flatMap_cons, List.flatMap_cons]
    exact (h x (by simp)).append (ih (fun a ha => h a (by simp [ha])))

/-- The body of a group entry is the input's sublist of elements with that
key. -/
theorem groupBy_body (key : α → String) (xs : List α) :
    ∀ g ∈ groupBy key xs, g.2 = xs.filter (fun x => key x = g.1) := by
  intro g hg
  have hnd := groupBy_keys_nodup key xs
  have hfind := find?_of_mem_nodup (groupBy key xs) g.1 g.2 (Prod.mk.eta ▸ hg) hnd
  have h0 : groupOf (groupBy key xs) g.1 = g.2 := by simp [groupOf, hfind]
  rw [← h0, groupOf_groupBy]

/-- C4: the cleaner never drops a channel: any channel with at least one
input programme keeps at least one output programme, under either
strategy. -/
theorem clean_overlaps_keeps_channels (ps : List Programme) (strategy c : String)
    (h : ∃ p ∈ ps, p.channel = c) :
    ∃ q ∈ clean_overlaps ps strategy, q.channel = c := by
  obtain ⟨p, hp, hpc⟩ := h
  have hmem : p ∈ groupOf (groupBy Programme.channel ps) c := by
    rw [groupOf_groupBy]
    exact List.mem_filter.mpr ⟨hp, decide_eq_true hpc⟩
  have hne : groupOf (groupBy Programme.channel ps) c ≠ [] := by
    intro h0
    rw [h0] at hmem
    cases hmem
  obtain ⟨q, hq⟩ := List.exists_mem_of_ne_nil _ (cleanChannel_ne_nil strategy _ hne)
  refine ⟨q, ?_, ?_⟩
  · have hsub := cleanChannel_groupOf_sublist strategy c (groupBy Programme.channel ps)
    have hmem2 : q ∈ (groupBy Programme.channel ps).flatMap
        (fun g => cleanChannel strategy g.2) := hsub.subset hq
    exact (List.mem_insertionSort chanStartLe).mpr hmem2
  · refine cleanChannel_channel strategy c _ ?_ q hq
    intro y hy
    rw [groupOf_groupBy] at hy
    exact of_decide_eq_true (List.mem_filter.mp hy).2

theorem clean_overlaps_keeps_channels_witness :
    ∃ q ∈ clean_overlaps
      [mkProg "ch" 0 10 "A"] "trim", q.channel = "ch" :=
  clean_overlaps_keeps_channels _ "trim" "ch"
    ⟨mkProg "ch" 0 10 "A", by simp, rfl⟩

/-- C5 (amended): on input whose channels are already non-overlapping in
the algorithm's sense (per channel, the start-sorted list has each
programme ending no later than the next starts), `clean_overlaps` returns
exactly the input programmes, merely sorted by `(channel, start)`, under
either strategy. -/
theorem clean_overlaps_disjoint_id (ps : List Programme) (strategy : String)
    (h : ∀ p ∈ ps,
      ((ps.filter (fun x => x.channel = p.channel)).insertionSort startLe).Chain' nonOv) :
    (clean_overlaps ps strategy).Perm ps ∧
    (clean_overlaps ps strategy).Pairwise chanStartLe := by
  constructor
  · refine (List.perm_insertionSort chanStartLe _).trans ?_
    have hgroups : ∀ g ∈ groupBy Programme.channel ps,
        cleanChannel strategy g.2 = g.2.insertionSort startLe := by
      intro g hg
      obtain ⟨p₀, hp₀⟩ :=
        List.exists_mem_of_ne_nil _ (groupBy_ne_nil Programme.channel ps g hg)
      have hkey : p₀.channel = g.1 := groupBy_keyed Programme.channel ps g hg p₀ hp₀
      have hgl : g.2 = ps.filter (fun x => x.channel = g.1) := groupBy_body _ ps g hg
      have hp₀ps : p₀ ∈ ps := by
        rw [hgl] at hp₀
        exact (List.mem_filter.mp hp₀).1
      have hch := h p₀ hp₀ps
      rw [hkey] at hch
      apply cleanChannel_of_sorted_chain
      rw [hgl]
      exact hch
    have hstep : ((groupBy Programme.channel ps).flatMap
        (fun g => cleanChannel strategy g.2)).Perm
        ((groupBy Programme.channel ps).flatMap Prod.snd) := by
      refine flatMap_perm_of_mem _ ?_
      intro g hg
      rw [hgroups g hg]
      exact List.perm_insertionSort startLe g.2
    exact hstep.trans (groupBy_flat_perm Programme.channel ps)
  · exact List.sorted_insertionSort chanStartLe _

theorem clean_overlaps_disjoint_id_witness :
    ((clean_overlaps [mkProg "ch" 20 30 "B",
       mkProg "ch" 0 10 "A"] "merge").Perm
      [mkProg "ch" 20 30 "B",
       mkProg "ch" 0 10 "A"]) ∧
    ((clean_overlaps [mkProg "ch" 20 30 "B",
       mkProg "ch" 0 10 "A"] "merge").Pairwise chanStartLe) :=
  clean_overlaps_disjoint_id _ "merge" (by decide)

/-- C5, as frozen, fails on the code: the input below has no two
programmes with intersecting `[start, stop)` ranges (the second has
`stop < start`, hence an empty range), yet `trim`-cleaning rewrites the
first programme's stop, so the output is not the input re-sorted. -/
theorem clean_overlaps_disjoint_counterexample :
    (∀ x ∈ [mkProg "ch" 0 10 "A",
       mkProg "ch" 5 4 "B"],
      ∀ y ∈ [mkProg "ch" 0 10 "A",
       mkProg "ch" 5 4 "B"],
        x ≠ y → ¬(max x.start y.start < min x.stop y.stop)) ∧
    ¬ (clean_overlaps [mkProg "ch" 0 10 "A",
       mkProg "ch" 5 4 "B"] "trim").Perm
      [mkProg "ch" 0 10 "A",
       mkProg "ch" 5 4 "B"] := by
  decide

/-- C2 as frozen fails for `merge`: on A=[10,100), B=[10,50) (equal
starts) the `merge` strategy has no containment case, so the output is not
the single programme [10,50) titled "B" that the claim requires of both
strategies. -/
theorem trim_containment_counterexample :
    ¬ ((clean_overlaps [mkProg "ch" 10 100 "A", mkProg "ch" 10 50 "B"] "merge").map
        (fun p => (p.start, p.stop, p.title)) = [(10, 50, "B")]) := by
  decide

/-- C2 (amended): the containment discard is a `trim`-only rule: under
`trim`, when the next programme `p` overlaps and `p.start ≤ cur.start`,
the current programme is dropped (never emitted) and `p` becomes current;
concretely A=[10,100), B=[10,50) under `trim` yields exactly [10,50)
titled "B", while under `merge` the same input yields one programme
[10,100) titled "A / B". -/
theorem trim_containment :
    (∀ (cur p : Programme) (rest : List Programme),
      p.start < cur.stop → p.start ≤ cur.start →
      sweep "trim" cur (p :: rest) = sweep "trim" p rest) ∧
    (clean_overlaps [mkProg "ch" 10 100 "A", mkProg "ch" 10 50 "B"] "trim").map
        (fun p => (p.start, p.stop, p.title)) = [(10, 50, "B")] ∧
    (clean_overlaps [mkProg "ch" 10 100 "A", mkProg "ch" 10 50 "B"] "merge").map
        (fun p => (p.start, p.stop, p.title)) = [(10, 100, "A / B")] := by
  refine ⟨?_, by decide, by decide⟩
  intro cur p rest h1 h2
  rw [sweep, if_pos h1, if_pos rfl, if_pos h2]

theorem trim_containment_witness :
    sweep "trim" (mkProg "ch" 10 100 "A") [mkProg "ch" 10 50 "B"]
      = sweep "trim" (mkProg "ch" 10 50 "B") [] :=
  trim_containment.1 (mkProg "ch" 10 100 "A") (mkProg "ch" 10 50 "B") []
    (by decide) (by decide)

/-- C6: merge accumulation: A=[0,50), B=[30,80), C=[70,90) on one channel
cleaned with strategy `merge` produce a single output programme with start
0, stop 90 and title "A / B / C". -/
theorem merge_accumulation :
    (clean_overlaps [mkProg "ch" 0 50 "A", mkProg "ch" 30 80 "B", mkProg "ch" 70 90 "C"]
        "merge").map (fun p => (p.start, p.stop, p.title)) = [(0, 90, "A / B / C")] := by
  decide

/-- One upstream stream record, with the fields `build_programs` reads
(`uri_name`, `id`, `poster`, `tag`, `category_name`, `name`, `starts_at`,
`ends_at`, `iframe`, `viewers`), every one optional. -/
structure StreamRecord where
  uri_name : Option String
  id : Option Int
  poster : Option String
  tag : Option String
  category_name : Option String
  name : Option String
  starts_at : Option Int
  ends_at : Option Int
  iframe : Option String
  viewers : Option Int
deriving Repr, DecidableEq

/-- One channel registry entry (`{"display": ..., "icon": ...}`). -/
structure Channel where
  display : String
  icon : Option String
deriving Repr, DecidableEq

/-- Python's rendering of an optional int inside an f-string
(`None` prints as the word None). -/
def idText : Option Int → String
  | some n => toString n
  | none => "None"

/-- Python `a or b` for an optional string with a string fallback (both
None and the empty string are falsy). -/
def pyOr (a : Option String) (b : String) : String :=
  match a with
  | some s => if s = "" then b else s
  | none => b

/-- `uri.replace("/", "_")`: a single-character pattern, hence a character
map. -/
def slashToUnderscore (s : String) : String :=
  ⟨s.data.map (fun ch => if ch = '/' then '_' else ch)⟩

/-- The derived channel id of a stream record
(`uri = s.get("uri_name") or f"id_{s.get('id')}"` then the slash
replacement). -/
def chanIdOf (s : StreamRecord) : String :=
  slashToUnderscore (pyOr s.uri_name ("id_" ++ idText s.id))

/-- One iteration of the inner loop of `build_programs`: register the
channel on first sight (before any timestamp check), then append a
programme only when both `starts_at` and `ends_at` are present. -/
def buildStep (acc : List (String × Channel) × List Programme) (s : StreamRecord) :
    List (String × Channel) × List Programme :=
  let chan_id := chanIdOf s
  let channels :=
    if (acc.1.find? (fun g => g.1 == chan_id)).isSome then acc.1
    else acc.1 ++ [(chan_id,
      { display := pyOr s.tag (pyOr s.category_name chan_id), icon := s.poster })]
  match s.starts_at, s.ends_at with
  | some st, some en =>
    (channels, acc.2 ++
      [{ channel := chan_id, start := st, stop := en,
         title := pyOr s.name ("stream_" ++ idText s.id), tag := s.tag,
         category := s.category_name, poster := s.poster, iframe := s.iframe,
         viewers := s.viewers, id := s.id, m3u8 := none }])
  | _, _ => (channels, acc.2)

/-- `build_programs(data, tz)`: loop over the categories of
`data["streams"]` and over each category's stream records, producing the
insertion-ordered channel registry and the programme list. -/
def build_programs (data : List (List StreamRecord)) :
    List (String × Channel) × List Programme :=
  data.foldl (fun acc category => category.foldl buildStep acc) ([], [])

/-- A stream record carrying only a uri name: no timestamps. -/
def timelessRecord : StreamRecord :=
  { uri_name := some "x", id := none, poster := none, tag := none,
    category_name := none, name := none, starts_at := none, ends_at := none,
    iframe := none, viewers := none }

/-- C3 as frozen fails: a record without timestamps registers its channel
(the registration happens before the timestamp check) but contributes no
programme, so the registry holds a channel id that no programme in the
returned list references. -/
theorem builder_channel_counterexample :
    ∃ cid ∈ (build_programs [[timelessRecord]]).1.map Prod.fst,
      ∀ p ∈ (build_programs [[timelessRecord]]).2, p.channel ≠ cid := by
  refine ⟨"x", by decide, by decide⟩

theorem exists_mem_append_last (l : List Programme) (q : Programme) :
    ∃ p ∈ l ++ [q], p.channel = q.channel :=
  ⟨q, List.mem_append.mpr (Or.inr (List.mem_singleton_self q)), rfl⟩

theorem buildStep_keeps (acc : List (String × Channel) × List Programme)
    (s : StreamRecord) (h1 : s.starts_at.isSome) (h2 : s.ends_at.isSome)
    (hInv : ∀ e ∈ acc.1, ∃ p ∈ acc.2, p.channel = e.1) :
    ∀ e ∈ (buildStep acc s).1, ∃ p ∈ (buildStep acc s).2, p.channel = e.1 := by
  obtain ⟨st, hst⟩ := Option.isSome_iff_exists.mp h1
  obtain ⟨en, hen⟩ := Option.isSome_iff_exists.mp h2
  intro e he
  simp only [buildStep, hst, hen] at he ⊢
  by_cases hfound : (acc.1.find? (fun g => g.1 == chanIdOf s)).isSome
  · rw [if_pos hfound] at he
    obtain ⟨p, hp, hpc⟩ := hInv e he
    exact ⟨p, List.mem_append.mpr (Or.inl hp), hpc⟩
  · rw [if_neg hfound] at he
    rcases List.mem_append.mp he with he | he
    · obtain ⟨p, hp, hpc⟩ := hInv e he
      exact ⟨p, List.mem_append.mpr (Or.inl hp), hpc⟩
    · simp only [List.mem_singleton] at he
      subst he
      exact exists_mem_append_last acc.2 _

/-- C3 (amended): channel registration happens for every record, timed or
not, so in general the registry may hold programme-less channels (see the
counterexample); but whenever every stream record carries both
timestamps, every channel id in the registry is referenced by at least
one programme in the returned uncleaned list. -/
theorem build_programs_channels_referenced (data : List (List StreamRecord))
    (h : ∀ cat ∈ data, ∀ s ∈ cat, s.starts_at.isSome ∧ s.ends_at.isSome) :
    ∀ cid ∈ (build_programs data).1.map Prod.fst,
      ∃ p ∈ (build_programs data).2, p.channel = cid := by
  have inner : ∀ (cat : List StreamRecord)
      (acc : List (String × Channel) × List Programme),
      (∀ s ∈ cat, s.starts_at.isSome ∧ s.ends_at.isSome) →
      (∀ e ∈ acc.1, ∃ p ∈ acc.2, p.channel = e.1) →
      ∀ e ∈ (cat.foldl buildStep acc).1,
        ∃ p ∈ (cat.foldl buildStep acc).2, p.channel = e.1 := by
    intro cat
    induction cat with
    | nil =>
      intro acc _ hInv
      simpa using hInv
    | cons s ss ih2 =>
      intro acc hs hInv
      rw [List.foldl_cons]
      exact ih2 _ (fun x hx => hs x (by simp [hx]))
        (buildStep_keeps acc s (hs s (by simp)).1 (hs s (by simp)).2 hInv)
  have main : ∀ (ds : List (List StreamRecord))
      (acc : List (String × Channel) × List Programme),
      (∀ cat ∈ ds, ∀ s ∈ cat, s.starts_at.isSome ∧ s.ends_at.isSome) →
      (∀ e ∈ acc.1, ∃ p ∈ acc.2, p.channel = e.1) →
      ∀ e ∈ (ds.foldl (fun acc category => category.foldl buildStep acc) acc).1,
        ∃ p ∈ (ds.foldl (fun acc category => category.foldl buildStep acc) acc).2,
          p.channel = e.1 := by
    intro ds
    induction ds with
    | nil =>
      intro acc _ hInv
      simpa using hInv
    | cons cat rest ih =>
      intro acc hall hInv
      rw [List.foldl_cons]
      exact ih _ (fun c hc s hs => hall c (by simp [hc]) s hs)
        (inner cat acc (fun s hs => hall cat (by simp) s hs) hInv)
  intro cid hcid
  obtain ⟨e, he, hee⟩ := List.mem_map.mp hcid
  obtain ⟨p, hp, hpc⟩ := main data ([], []) h (by simp) e he
  exact ⟨p, hp, hpc.trans hee⟩

/-- A stream record with both timestamps present. -/
def timedRecord : StreamRecord :=
  { uri_name := some "x", id := none, poster := none, tag := none,
    category_name := none, name := none, starts_at := some 0, ends_at := some 10,
    iframe := none, viewers := none }

theorem build_programs_channels_referenced_witness :
    ∃ p ∈ (build_programs [[timedRecord]]).2, p.channel = "x" :=
  build_programs_channels_referenced [[timedRecord]] (by decide) "x" (by decide)

/-- The separator `epg.py` line 276 joins desc parts with: the three
characters U+00E2 U+20AC U+201D between two spaces (the UTF-8 bytes of an
em dash decoded as cp1252), exactly as the source file's bytes spell it. -/
def descSep : String := " â€” "

/-- The list `desc_parts` built in `generate_xmltv` (epg.py lines
267-275): embed, viewers, poster, hls, each appended only when the field
is truthy (`viewers` only when not None, the URL fields when non-empty). -/
def desc_parts (p : Programme) : List String :=
  (match p.iframe with
   | some u => if u = "" then [] else ["embed=" ++ u]
   | none => []) ++
  (match p.viewers with
   | some v => ["viewers=" ++ toString v]
   | none => []) ++
  (match p.poster with
   | some u => if u = "" then [] else ["poster=" ++ u]
   | none => []) ++
  (match p.m3u8 with
   | some u => if u = "" then [] else ["hls=" ++ u]
   | none => [])

/-- The text of the `desc` child (`" â€” ".join(desc_parts)`). -/
def desc_text (p : Programme) : String := String.intercalate descSep (desc_parts p)

/-- C7: evaluating the desc text of a programme with embed URL and viewer
count present shows the parts in the fixed order rendered as key=value,
but joined by the mojibake three-character separator U+00E2 U+20AC U+201D,
not by the em dash U+2014 the claim requires; with all four fields absent
the text is empty. -/
theorem desc_text_separator :
    desc_text { mkProg "ch" 0 10 "A" with iframe := some "http://e", viewers := some 5 } = "embed=http://e â€” viewers=5" ∧
    desc_text { mkProg "ch" 0 10 "A" with iframe := some "http://e", viewers := some 5 } ≠ "embed=http://e — viewers=5" ∧
    desc_text (mkProg "ch" 0 10 "A") = "" := by
  refine ⟨by decide, by decide, by decide⟩

/-- The `length` child of a programme element (epg.py lines 261-263):
units attribute and text `str(max(0, (stop - start) // 60))`, with
Python's floor division. -/
def length_child (p : Programme) : String × String :=
  ("minutes", toString (max 0 ((p.stop - p.start).fdiv 60)))

/-- C8: the length child always has units "minutes" and a non-negative
integer text; a 125-second duration renders as "2" (floor), and a
negative duration renders as "0", never a negative number. -/
theorem length_child_spec (p : Programme) :
    (length_child p).1 = "minutes" ∧
    (∃ n : Int, 0 ≤ n ∧ (length_child p).2 = toString n) ∧
    (p.stop - p.start = 125 → (length_child p).2 = "2") ∧
    (p.stop < p.start → (length_child p).2 = "0") := by
  refine ⟨rfl, ⟨max 0 ((p.stop - p.start).fdiv 60), le_max_left 0 _, rfl⟩, ?_, ?_⟩
  · intro h
    simp only [length_child, h]
    decide
  · intro h
    have hfd : (p.stop - p.start).fdiv 60 = (p.stop - p.start) / 60 :=
      Int.fdiv_eq_ediv _ (by norm_num)
    have h0 : max 0 ((p.stop - p.start).fdiv 60) = 0 := by
      rw [hfd]
      omega
    simp only [length_child, h0]
    decide

theorem length_child_spec_witness :
    (length_child (mkProg "ch" 0 125 "A")).2 = "2" ∧
    (length_child (mkProg "ch" 10 3 "B")).2 = "0" :=
  ⟨(length_child_spec (mkProg "ch" 0 125 "A")).2.2.1 (by decide),
   (length_child_spec (mkProg "ch" 10 3 "B")).2.2.2 (by decide)⟩

/-- A decimal digit character (the argument is taken mod 10, so the result
is always one of 0-9). -/
def digitCh (n : Nat) : Char := Nat.digitChar (n % 10)

/-- Four-digit zero-padded decimal rendering, as `%Y` formats every year
the `datetime` range admits with four digits (years below 1000 cannot
reach the theorems below, which all assume a four-digit local year). -/
def pad4 (n : Nat) : String :=
  ⟨[digitCh (n / 1000), digitCh (n / 100), digitCh (n / 10), digitCh n]⟩

/-- Two-digit zero-padded decimal rendering (`%02d`); every field rendered
with it (month, day, hour, minute, second, offset hours and minutes) is
below 100. -/
def pad2 (n : Nat) : String := ⟨[digitCh (n / 10), digitCh n]⟩

/-- Local civil (proleptic Gregorian) date and time, as CPython's
`datetime` exposes an instant. -/
structure CivilTime where
  year : Int
  month : Nat
  day : Nat
  hour : Nat
  minute : Nat
  second : Nat
deriving Repr, DecidableEq

/-- Civil date of a day count relative to 1970-01-01 (the standard
era/year-of-era conversion the proleptic Gregorian calendar of `datetime`
follows). -/
def civilFromDays (z : Int) : Int × Nat × Nat :=
  let era := (z + 719468).fdiv 146097
  let doe := ((z + 719468).emod 146097).toNat
  let yoe := (doe - doe / 1460 + doe / 36524 - doe / 146096) / 365
  let doy := doe - (365 * yoe + yoe / 4 - yoe / 100)
  let mp := (5 * doy + 2) / 153
  let d := doy - (153 * mp + 2) / 5 + 1
  let m := if mp < 10 then mp + 3 else mp - 9
  (era * 400 + yoe + (if m ≤ 2 then 1 else 0), m, d)

/-- The civil fields of an epoch-seconds instant (what
`datetime.fromtimestamp` exposes for it in a fixed-offset view). -/
def civilOfSecs (t : Int) : CivilTime :=
  let sod := (t.emod 86400).toNat
  let ymd := civilFromDays (t.fdiv 86400)
  { year := ymd.1, month := ymd.2.1, day := ymd.2.2,
    hour := sod / 3600, minute := sod % 3600 / 60, second := sod % 60 }

example : civilOfSecs 0 = ⟨1970, 1, 1, 0, 0, 0⟩ := by decide

example : civilOfSecs 951782400 = ⟨2000, 2, 29, 0, 0, 0⟩ := by decide

example : civilOfSecs 253402300799 = ⟨9999, 12, 31, 23, 59, 59⟩ := by decide

example : civilOfSecs (-62135596800) = ⟨1, 1, 1, 0, 0, 0⟩ := by decide

example : (civilOfSecs 253402300800).year = 10000 := by decide

/-- `dt.strftime("%Y%m%d%H%M%S")` on the local civil time of an instant
(year rendered with four digits; every representable local instant has
year between 1 and 9999). -/
def wallString (t : Int) : String :=
  let c := civilOfSecs t
  pad4 c.year.toNat ++ pad2 c.month ++ pad2 c.day ++
    pad2 c.hour ++ pad2 c.minute ++ pad2 c.second

/-- The offset tail `f" {sign}{hh:02d}{mm:02d}"` of `xmltv_time`, with
`minutes = int(off.total_seconds() // 60)`, `sign = '+' if minutes >= 0
else '-'`, `hh = abs(minutes)//60`, `mm = abs(minutes)%60`. -/
def offsetText (off : Int) : String :=
  let minutes := off.fdiv 60
  (if 0 ≤ minutes then "+" else "-") ++
    pad2 (minutes.natAbs / 60) ++ pad2 (minutes.natAbs % 60)

/-- A time zone as `zoneinfo` exposes one to `epg.py`: a UTC offset for
every instant (DST-aware), strictly between minus and plus one day, as
Python requires of `utcoffset`. -/
structure Tz where
  offsetSeconds : Int → Int
  bounded : ∀ t, -86400 < offsetSeconds t ∧ offsetSeconds t < 86400

/-- Epoch seconds of `datetime.min` (0001-01-01T00:00:00). -/
def minEpochSecs : Int := -62135596800

/-- Epoch seconds of `datetime.max` whole seconds (9999-12-31T23:59:59). -/
def maxEpochSecs : Int := 253402300799

/-- `xmltv_time(ts, tz)` from `epg.py`:
`datetime.fromtimestamp(ts, timezone.utc).astimezone(tz)` followed by
`strftime` and the explicit offset rendering.  `fromtimestamp` raises when
the UTC instant falls outside years 1-9999 and `astimezone` raises when
the shifted local time does, so the rendering is partial: `none` models
the raised exception. -/
def xmltv_time (ts : Int) (tz : Tz) : Option String :=
  if minEpochSecs ≤ ts ∧ ts ≤ maxEpochSecs then
    if minEpochSecs ≤ ts + tz.offsetSeconds ts ∧ ts + tz.offsetSeconds ts ≤ maxEpochSecs then
      some (wallString (ts + tz.offsetSeconds ts) ++ " " ++ offsetText (tz.offsetSeconds ts))
    else none
  else none

/-- The UTC zone (offset 0 everywhere). -/
def utcTz : Tz := ⟨fun _ => 0, fun t => by norm_num⟩

/-- C9 as frozen fails: at the instant one second past 9999-12-31T23:59:59
UTC, `datetime.fromtimestamp` raises instead of rendering, so there is no
instant-rendering at all, let alone a 14-digit one. -/
theorem xmltv_time_counterexample : xmltv_time 253402300800 utcTz = none := by decide

theorem digitCh_isDigit (n : Nat) : (digitCh n).isDigit = true := by
  have hda : ∀ m : Nat, m < 10 → (Nat.digitChar m).isDigit = true := by decide
  exact hda (n % 10) (Nat.mod_lt n (by norm_num))

theorem pad4_length (n : Nat) : (pad4 n).length = 4 := rfl

theorem pad2_length (n : Nat) : (pad2 n).length = 2 := rfl

theorem pad4_digits (n : Nat) : ∀ ch ∈ (pad4 n).data, ch.isDigit = true := by
  intro ch hch
  have h2 : ch ∈ [digitCh (n / 1000), digitCh (n / 100), digitCh (n / 10), digitCh n] := hch
  simp only [List.mem_cons, List.not_mem_nil, or_false] at h2
  rcases h2 with rfl | rfl | rfl | rfl <;> exact digitCh_isDigit _

theorem pad2_digits (n : Nat) : ∀ ch ∈ (pad2 n).data, ch.isDigit = true := by
  intro ch hch
  have h2 : ch ∈ [digitCh (n / 10), digitCh n] := hch
  simp only [List.mem_cons, List.not_mem_nil, or_false] at h2
  rcases h2 with rfl | rfl <;> exact digitCh_isDigit _

theorem wallString_length (t : Int) : (wallString t).length = 14 := by
  simp [wallString, String.length_append, pad4_length, pad2_length]

theorem wallString_digits (t : Int) : ∀ ch ∈ (wallString t).data, ch.isDigit = true := by
  intro ch hch
  simp only [wallString, String.data_append, List.mem_append] at hch
  rcases hch with ((((h | h) | h) | h) | h) | h
  · exact pad4_digits _ ch h
  · exact pad2_digits _ ch h
  · exact pad2_digits _ ch h
  · exact pad2_digits _ ch h
  · exact pad2_digits _ ch h
  · exact pad2_digits _ ch h

theorem offsetText_decode (off : Int) (hb : -86400 < off ∧ off < 86400)
    (hdiv : 60 ∣ off) :
    ∃ hh mm : Nat,
      offsetText off = (if 0 ≤ off then "+" else "-") ++ pad2 hh ++ pad2 mm ∧
      hh < 24 ∧ mm < 60 ∧ (hh * 3600 + mm * 60 : Int) = off.natAbs := by
  obtain ⟨k, hk⟩ := hdiv
  have hmin : off.fdiv 60 = k := by
    rw [hk]
    exact Int.mul_fdiv_cancel_left k (by norm_num)
  have hkb : -1440 < k ∧ k < 1440 := by omega
  refine ⟨k.natAbs / 60, k.natAbs % 60, ?_, by omega, by omega, ?_⟩
  · rw [offsetText]
    rw [hmin]
    have hiff : (0 ≤ k) ↔ (0 ≤ off) := by omega
    by_cases h0 : 0 ≤ off
    · rw [if_pos (hiff.mpr h0), if_pos h0]
    · rw [if_neg (fun hc => h0 (hiff.mp hc)), if_neg h0]
  · have h1 : off.natAbs = 60 * k.natAbs := by
      simp [hk, Int.natAbs_mul]
    have h2 : (k.natAbs / 60) * 3600 + (k.natAbs % 60) * 60 = 60 * k.natAbs := by omega
    rw [h1]
    exact_mod_cast h2

/-- C9 (amended): for every instant within `datetime`'s representable
range (both at UTC and after the zone shift), every zone whose offset at
the instant is a whole number of minutes, and a four-digit local year,
`xmltv_time` renders the 14-digit local wall-clock stamp, one space, then
the sign and zero-padded HHMM encoding exactly the zone's UTC offset at
that instant; the local clock fields are genuine clock values. -/
theorem xmltv_time_format (ts : Int) (tz : Tz)
    (hts : minEpochSecs ≤ ts ∧ ts ≤ maxEpochSecs)
    (hloc : minEpochSecs ≤ ts + tz.offsetSeconds ts ∧
      ts + tz.offsetSeconds ts ≤ maxEpochSecs)
    (hy : 1000 ≤ (civilOfSecs (ts + tz.offsetSeconds ts)).year)
    (hdiv : 60 ∣ tz.offsetSeconds ts) :
    ∃ hh mm : Nat,
      xmltv_time ts tz = some (wallString (ts + tz.offsetSeconds ts) ++ " " ++
        offsetText (tz.offsetSeconds ts)) ∧
      (wallString (ts + tz.offsetSeconds ts)).length = 14 ∧
      (∀ ch ∈ (wallString (ts + tz.offsetSeconds ts)).data, ch.isDigit = true) ∧
      offsetText (tz.offsetSeconds ts)
        = (if 0 ≤ tz.offsetSeconds ts then "+" else "-") ++ pad2 hh ++ pad2 mm ∧
      hh < 24 ∧ mm < 60 ∧
      (hh * 3600 + mm * 60 : Int) = (tz.offsetSeconds ts).natAbs ∧
      (civilOfSecs (ts + tz.offsetSeconds ts)).hour < 24 ∧
      (civilOfSecs (ts + tz.offsetSeconds ts)).minute < 60 ∧
      (civilOfSecs (ts + tz.offsetSeconds ts)).second < 60 := by
  obtain ⟨hh, mm, hdec, hh24, hm60, hsum⟩ :=
    offsetText_decode (tz.offsetSeconds ts) (tz.bounded ts) hdiv
  refine ⟨hh, mm, ?_, wallString_length _, wallString_digits _, hdec, hh24, hm60, hsum,
    ?_, ?_, ?_⟩
  · rw [xmltv_time, if_pos hts, if_pos hloc]
  · have h1 : 0 ≤ (ts + tz.offsetSeconds ts).emod 86400 :=
      Int.emod_nonneg _ (by norm_num)
    have h2 : (ts + tz.offsetSeconds ts).emod 86400 < 86400 :=
      Int.emod_lt_of_pos _ (by norm_num)
    simp only [civilOfSecs]
    omega
  · have h1 : 0 ≤ (ts + tz.offsetSeconds ts).emod 86400 :=
      Int.emod_nonneg _ (by norm_num)
    have h2 : (ts + tz.offsetSeconds ts).emod 86400 < 86400 :=
      Int.emod_lt_of_pos _ (by norm_num)
    simp only [civilOfSecs]
    omega
  · have h1 : 0 ≤ (ts + tz.offsetSeconds ts).emod 86400 :=
      Int.emod_nonneg _ (by norm_num)
    have h2 : (ts + tz.offsetSeconds ts).emod 86400 < 86400 :=
      Int.emod_lt_of_pos _ (by norm_num)
    simp only [civilOfSecs]
    omega

/-- The default zone of `epg.py` at instants without DST (Asia/Manila,
UTC+8). -/
def tzManila : Tz := ⟨fun _ => 28800, fun t => by norm_num⟩

theorem xmltv_time_format_witness :
    (∃ hh mm : Nat,
      xmltv_time 0 tzManila = some (wallString (0 + tzManila.offsetSeconds 0) ++ " " ++
        offsetText (tzManila.offsetSeconds 0)) ∧
      (wallString (0 + tzManila.offsetSeconds 0)).length = 14 ∧
      (∀ ch ∈ (wallString (0 + tzManila.offsetSeconds 0)).data, ch.isDigit = true) ∧
      offsetText (tzManila.offsetSeconds 0)
        = (if 0 ≤ tzManila.offsetSeconds 0 then "+" else "-") ++ pad2 hh ++ pad2 mm ∧
      hh < 24 ∧ mm < 60 ∧
      (hh * 3600 + mm * 60 : Int) = (tzManila.offsetSeconds 0).natAbs ∧
      (civilOfSecs (0 + tzManila.offsetSeconds 0)).hour < 24 ∧
      (civilOfSecs (0 + tzManila.offsetSeconds 0)).minute < 60 ∧
      (civilOfSecs (0 + tzManila.offsetSeconds 0)).second < 60) ∧
    xmltv_time 0 tzManila = some "19700101080000 +0800" :=
  ⟨xmltv_time_format 0 tzManila (by decide) (by decide) (by decide) (by decide),
   by decide⟩

/-- The heap of programme dicts: cell `i` is the dict object with id `i`;
`p.copy()` appends a fresh cell, a field assignment mutates a cell in
place. -/
abbrev Heap := List Programme

/-- Reading a dict through its reference. -/
def readH (h : Heap) (i : Nat) : Programme := h.getD i (mkProg "" 0 0 "")

/-- `p.copy()`: allocate a fresh dict with the same values; returns the
new heap and the fresh reference. -/
def copyH (h : Heap) (i : Nat) : Heap × Nat := (h ++ [readH h i], h.length)

/-- `d["stop"] = v`. -/
def setStopH (h : Heap) (i : Nat) (v : Int) : Heap :=
  h.set i { readH h i with stop := v }

/-- `d["title"] = t`. -/
def setTitleH (h : Heap) (i : Nat) (t : String) : Heap :=
  h.set i { readH h i with title := t }

/-- The per-channel loop of `clean_overlaps` over references into the
heap, mutating only through `copyH`, `setStopH` and `setTitleH` exactly
where the source assigns. -/
def sweepH (strategy : String) : Heap → Nat → List Nat → Heap × List Nat
  | h, cur, [] => (h, [cur])
  | h, cur, p :: rest =>
    if (readH h p).start < (readH h cur).stop then
      if strategy = "trim" then
        if (readH h p).start ≤ (readH h cur).start then
          let hc := copyH h p
          sweepH strategy hc.1 hc.2 rest
        else
          let h1 := setStopH h cur (readH h p).start
          let hc := copyH h1 p
          let res := sweepH strategy hc.1 hc.2 rest
          (res.1, cur :: res.2)
      else
        let h1 := setStopH h cur (max (readH h cur).stop (readH h p).stop)
        let h2 := setTitleH h1 cur ((readH h1 cur).title ++ " / " ++ (readH h1 p).title)
        sweepH strategy h2 cur rest
    else
      let hc := copyH h p
      let res := sweepH strategy hc.1 hc.2 rest
      (res.1, cur :: res.2)

/-- One channel in the heap model: sort the channel's references by the
start field read through the heap, then run the loop starting from a copy
of the first. -/
def cleanChannelH (strategy : String) (h : Heap) (plist : List Nat) : Heap × List Nat :=
  match plist.insertionSort (fun i j => (readH h i).start ≤ (readH h j).start) with
  | [] => (h, [])
  | p :: rest =>
    let hc := copyH h p
    sweepH strategy hc.1 hc.2 rest

/-- `clean_overlaps` in the heap model: the input list holds references
`0, ..., n-1` into a heap whose cells are the input dicts; the result is
the final heap and the output references sorted by (channel, start). -/
def clean_overlaps_heap (progs : List Programme) (strategy : String := "trim") :
    Heap × List Nat :=
  let refs := List.range progs.length
  let groups := groupBy (fun i => (readH progs i).channel) refs
  let res := groups.foldl (fun acc g =>
    let r := cleanChannelH strategy acc.1 g.2
    (r.1, acc.2 ++ r.2)) (progs, [])
  (res.1, res.2.insertionSort (fun i j =>
    chanStartLe (readH res.1 i) (readH res.1 j)))

theorem take_set_of_le (l : List α) (i : Nat) (v : α) (n : Nat) (h : n ≤ i) :
    (l.set i v).take n = l.take n := by
  induction l generalizing i n with
  | nil => simp
  | cons a l ih =>
    cases i with
    | zero =>
      cases n with
      | zero => simp
      | succ n => omega
    | succ i =>
      cases n with
      | zero => simp
      | succ n =>
        simp only [List.set_cons_succ, List.take_succ_cons]
        rw [ih i n (by omega)]

theorem take_append_of_le (l l' : List α) (n : Nat) (h : n ≤ l.length) :
    (l ++ l').take n = l.take n := by
  rw [List.take_append_of_le_length h]

theorem sweepH_frame (strategy : String) (n : Nat) :
    ∀ (rest : List Nat) (h : Heap) (cur : Nat), n ≤ h.length → n ≤ cur →
      (sweepH strategy h cur rest).1.take n = h.take n ∧
      n ≤ (sweepH strategy h cur rest).1.length := by
  intro rest
  induction rest with
  | nil =>
    intro h cur hlen _
    exact ⟨rfl, hlen⟩
  | cons p rest ih =>
    intro h cur hlen hcur
    simp only [sweepH]
    split_ifs with h1 h2 h3
    · -- trim containment: copy p, drop cur
      have hstep := ih (h ++ [readH h p]) h.length
        (by simp; omega) (by omega)
      exact ⟨hstep.1.trans (take_append_of_le _ _ n hlen), hstep.2⟩
    · -- trim partial: mutate cur's stop, copy p, emit cur
      have hset : (setStopH h cur (readH h p).start).take n = h.take n :=
        take_set_of_le _ _ _ _ hcur
      have hlen1 : n ≤ (setStopH h cur (readH h p).start).length := by
        simp [setStopH]; omega
      have hstep := ih ((setStopH h cur (readH h p).start) ++
          [readH (setStopH h cur (readH h p).start) p])
        (setStopH h cur (readH h p).start).length (by simp; omega) (by omega)
      exact ⟨hstep.1.trans ((take_append_of_le _ _ n hlen1).trans hset), hstep.2⟩
    · -- merge: mutate cur's stop then title
      have hset1 : (setStopH h cur (max (readH h cur).stop (readH h p).stop)).take n
          = h.take n := take_set_of_le _ _ _ _ hcur
      have hlen1 : n ≤ (setStopH h cur (max (readH h cur).stop (readH h p).stop)).length := by
        simp [setStopH]; omega
      have hset2 : (setTitleH (setStopH h cur (max (readH h cur).stop (readH h p).stop)) cur
          ((readH (setStopH h cur (max (readH h cur).stop (readH h p).stop)) cur).title
            ++ " / " ++
            (readH (setStopH h cur (max (readH h cur).stop (readH h p).stop)) p).title)).take n
          = (setStopH h cur (max (readH h cur).stop (readH h p).stop)).take n :=
        take_set_of_le _ _ _ _ hcur
      have hlen2 : n ≤ (setTitleH (setStopH h cur (max (readH h cur).stop (readH h p).stop)) cur
          ((readH (setStopH h cur (max (readH h cur).stop (readH h p).stop)) cur).title
            ++ " / " ++
            (readH (setStopH h cur (max (readH h cur).stop (readH h p).stop)) p).title)).length := by
        simp [setTitleH, setStopH]; omega
      have hstep := ih _ cur hlen2 hcur
      exact ⟨hstep.1.trans (hset2.trans hset1), hstep.2⟩
    · -- no overlap: copy p, emit cur
      have hstep := ih (h ++ [readH h p]) h.length
        (by simp; omega) (by omega)
      exact ⟨hstep.1.trans (take_append_of_le _ _ n hlen), hstep.2⟩

theorem cleanChannelH_frame (strategy : String) (n : Nat) (h : Heap)
    (plist : List Nat) (hlen : n ≤ h.length) :
    (cleanChannelH strategy h plist).1.take n = h.take n ∧
    n ≤ (cleanChannelH strategy h plist).1.length := by
  rcases hs : plist.insertionSort
      (fun i j => (readH h i).start ≤ (readH h j).start) with _ | ⟨p, rest⟩
  · have : cleanChannelH strategy h plist = (h, []) := by
      simp [cleanChannelH, hs]
    rw [this]
    exact ⟨rfl, hlen⟩
  · have heq : cleanChannelH strategy h plist
        = sweepH strategy (copyH h p).1 (copyH h p).2 rest := by
      simp [cleanChannelH, hs]
    rw [heq]
    have hstep := sweepH_frame strategy n rest (h ++ [readH h p]) h.length
      (by simp; omega) (by omega)
    exact ⟨hstep.1.trans (take_append_of_le _ _ n hlen), hstep.2⟩

/-- C10: the cleaner never mutates its input: after running the heap model
of `clean_overlaps` on any input list and any strategy, the first
`n` heap cells (the input dicts) still hold exactly the input values;
all stop/title writes happened on freshly copied cells. -/
theorem clean_overlaps_heap_frame (progs : List Programme) (strategy : String) :
    (clean_overlaps_heap progs strategy).1.take progs.length = progs := by
  have main : ∀ (groups : List (String × List Nat)) (acc : Heap × List Nat),
      progs.length ≤ acc.1.length → acc.1.take progs.length = progs →
      (groups.foldl (fun acc g =>
        ((cleanChannelH strategy acc.1 g.2).1,
          acc.2 ++ (cleanChannelH strategy acc.1 g.2).2)) acc).1.take progs.length = progs ∧
      progs.length ≤ (groups.foldl (fun acc g =>
        ((cleanChannelH strategy acc.1 g.2).1,
          acc.2 ++ (cleanChannelH strategy acc.1 g.2).2)) acc).1.length := by
    intro groups
    induction groups with
    | nil =>
      intro acc h1 h2
      exact ⟨h2, h1⟩
    | cons g rest ih =>
      intro acc h1 h2
      rw [List.foldl_cons]
      have hc := cleanChannelH_frame strategy progs.length acc.1 g.2 h1
      exact ih _ hc.2 (hc.1.trans h2)
  have hres := main (groupBy (fun i => (readH progs i).channel)
    (List.range progs.length)) (progs, []) (le_refl _) (List.take_length progs)
  simpa [clean_overlaps_heap] using hres.1

example :
    ((clean_overlaps_heap [mkProg "ch" 0 100 "A", mkProg "ch" 10 50 "B"] "trim").2.map
      (readH (clean_overlaps_heap [mkProg "ch" 0 100 "A", mkProg "ch" 10 50 "B"] "trim").1))
      = clean_overlaps [mkProg "ch" 0 100 "A", mkProg "ch" 10 50 "B"] "trim" := by
  decide

example :
    ((clean_overlaps_heap [mkProg "ch" 0 50 "A", mkProg "ch" 30 80 "B"] "merge").2.map
      (readH (clean_overlaps_heap [mkProg "ch" 0 50 "A", mkProg "ch" 30 80 "B"] "merge").1))
      = clean_overlaps [mkProg "ch" 0 50 "A", mkProg "ch" 30 80 "B"] "merge" := by
  decide
